import Mathlib

/-!
Verification of the sqlint core: a shallow embedding of the lexical model,
the indentation-derived tree (`src/sqlint/syntax_tree.py`), the violation
catalog (`src/checker/violation.py`), the checker orchestrator
(`src/checker/tree.py`) and the validated configuration accessors
(`src/sqlint/config/config_loader.py`).

The parser module (class `Token` and the per-line tokenizer `parse`) and
the five checker implementations (`checker/base`) are not among the given
sources; they are modelled from the specification, and every such
definition says so in its doc comment.
-/

namespace Sqlint

/-- Token kinds of the lexical model.  Modelled from the spec: the parser
module defining class `Token` is not among the sources; spec section 3
lists the kinds WHITESPACE, COMMENT, KEYWORD, IDENTIFIER, LITERAL,
OPERATOR, COMMA, BRACKET_LEFT, BRACKET_RIGHT. -/
inductive TokenKind where
  | whitespace
  | comment
  | keyword
  | identifier
  | literal
  | operator
  | comma
  | bracketLeft
  | bracketRight
deriving DecidableEq

/-- A token: a kind plus the exact source text.  Modelled from the spec
(section 3): immutable and information preserving. -/
structure Token where
  kind : TokenKind
  word : String
deriving DecidableEq

/-- Length of a token is the length of its text (`Token.__len__` of the
missing parser module; the spec, section 3, gives each token its length). -/
def Token.len (t : Token) : Nat := t.word.length

/-- Whitespace characters (space and tab).  Modelled from the spec
(section 4.1). -/
def isWSChar (c : Char) : Bool := c == ' ' || c == '\t'

/-- Single-character operator forms.  Modelled from the spec
(section 4.1): comparison and arithmetic operators. -/
def isOpChar (c : Char) : Bool :=
  c == '=' || c == '<' || c == '>' || c == '!' || c == '+' || c == '-' ||
  c == '*' || c == '/' || c == '%'

/-- Multi-character comparison forms.  Modelled from the spec
(section 4.1). -/
def isTwoCharOp (a b : Char) : Bool :=
  (a == '<' && b == '=') || (a == '>' && b == '=') ||
  (a == '<' && b == '>') || (a == '!' && b == '=')

/-- Characters that terminate an identifier or literal run. -/
def specialChar (c : Char) : Bool :=
  isWSChar c || isOpChar c || c == ',' || c == '(' || c == ')'

/-- A character that may continue an identifier or literal run. -/
def isWordChar (c : Char) : Bool := !(specialChar c)

/-- The fixed, case-insensitive reserved-word set.  Modelled from the spec
(sections 4.1 and 4.3). -/
def keywords : List String :=
  ["select", "from", "where", "join", "inner", "left", "right", "outer",
   "cross", "full", "on", "and", "or", "group", "by", "order", "having", "as"]

/-- Classification of a non-special character run.  Modelled from the spec
(section 4.1): the reserved-word set is matched case-insensitively, digit
runs are literals, everything else is an identifier. -/
def classify (w : List Char) : TokenKind :=
  if keywords.contains (String.mk (w.map Char.toLower)) then .keyword
  else if w.all Char.isDigit then .literal
  else .identifier

/-- One token at a single-character or word position.  Modelled from the
spec (section 4.1).  Returns the token and the remaining characters. -/
def nextTokenSingle (c : Char) (cs : List Char) : Token × List Char :=
  if isOpChar c then (⟨.operator, ⟨[c]⟩⟩, cs)
  else if c == ',' then (⟨.comma, ⟨[c]⟩⟩, cs)
  else if c == '(' then (⟨.bracketLeft, ⟨[c]⟩⟩, cs)
  else if c == ')' then (⟨.bracketRight, ⟨[c]⟩⟩, cs)
  else
    let run := cs.takeWhile isWordChar
    (⟨classify (c :: run), ⟨c :: run⟩⟩, cs.dropWhile isWordChar)

/-- Next token of a line.  Modelled from the spec (section 4.1): maximal
whitespace runs, inline comment marker `--` consuming the rest of the
line, two-character comparison forms, then single characters and word
runs. -/
def nextToken (c : Char) (cs : List Char) : Token × List Char :=
  if isWSChar c then
    (⟨.whitespace, ⟨c :: cs.takeWhile isWSChar⟩⟩, cs.dropWhile isWSChar)
  else if c == '-' && cs.head? == some '-' then
    (⟨.comment, ⟨c :: cs⟩⟩, [])
  else
    match cs with
    | c2 :: rest =>
      if isTwoCharOp c c2 then (⟨.operator, ⟨[c, c2]⟩⟩, rest)
      else nextTokenSingle c (c2 :: rest)
    | [] => nextTokenSingle c []

/-- Fuel-driven per-line tokenizer loop.  Modelled from the spec
(section 4.1).  Each step consumes at least one character, so fuel equal
to the number of characters suffices; the fuel only makes the recursion
structural. -/
def tokenizeFuel : Nat → List Char → List Token
  | _, [] => []
  | 0, _ :: _ => []
  | fuel + 1, c :: cs =>
    (nextToken c cs).1 :: tokenizeFuel fuel (nextToken c cs).2

/-- Tokenizer for one line of text.  Modelled from the spec (section 4.1):
an ordered token sequence whose concatenated texts reproduce the line. -/
def tokenizeChars (l : List Char) : List Token := tokenizeFuel l.length l

/-- A Node owns the token sequence of one source line (`Node` of
`syntax_tree.py`).  `line_num` is kept as a natural number; the
construction-time contract of the `line_num` property setter is modelled
separately by `Node.init` below. -/
structure Node where
  line_num : Nat
  tokens : List Token
deriving DecidableEq

/-- Rendered text of a node: the concatenation of its token texts
(`Node.text`, which is `"".join(x.word for x in tokens)`). -/
def Node.text (n : Node) : String := String.join (n.tokens.map (fun t => t.word))

/-- Indent of a token sequence: the length of the first token's text when
that token is whitespace, else 0 (`Node.indent`, also computed inline in
`SyntaxTree.sqlptree`). -/
def indentOf (tokens : List Token) : Nat :=
  match tokens with
  | [] => 0
  | head :: _ => if head.kind = TokenKind.whitespace then head.len else 0

/-- Indent of a node (`Node.indent`). -/
def Node.indent (n : Node) : Nat := indentOf n.tokens

/-- Column position before the `index`-th token: 1 plus the sum of the
lengths of the preceding tokens (`Node.get_position`; a negative index is
clamped to 0 by `max(index, 0)`). -/
def Node.get_position (n : Node) (index : Int) : Nat :=
  ((n.tokens.take (max index 0).toNat).map Token.len).sum + 1

/-- Leading trim by kind set (`Node.ltrip_kind`): the loop counts the
maximal leading run of tokens whose kind is among `ks` and returns a new
node with `tokens[cut + 1 :]`. -/
def Node.ltrip_kind (n : Node) (ks : List TokenKind) : Node :=
  let cut := (n.tokens.takeWhile (fun t => ks.contains t.kind)).length
  ⟨n.line_num, n.tokens.drop cut⟩

/-- Trailing trim by kind set (`Node.rtrip_kind`): the loop walks the
reversed tokens, decrementing `cut` over the maximal trailing run, and
returns a new node with `tokens[0 : cut]`. -/
def Node.rtrip_kind (n : Node) (ks : List TokenKind) : Node :=
  let cut := n.tokens.length - (n.tokens.reverse.takeWhile (fun t => ks.contains t.kind)).length
  ⟨n.line_num, n.tokens.take cut⟩

/-- Trim at both ends (`Node.trip_kind` is `ltrip_kind` then `rtrip_kind`). -/
def Node.trip_kind (n : Node) (ks : List TokenKind) : Node :=
  (n.ltrip_kind ks).rtrip_kind ks

/-- The indentation-derived tree (`SyntaxTree` of `syntax_tree.py`): an
owned node, the depth, and the ordered owned children.  The parent
back-reference of the source is represented implicitly by the ancestor
stack used during construction, and the `is_abstract` flag is a
construction-time parameter. -/
inductive SyntaxTree where
  | mk (node : Node) (depth : Nat) (leaves : List SyntaxTree)

def SyntaxTree.node : SyntaxTree → Node
  | ⟨n, _, _⟩ => n

def SyntaxTree.depth : SyntaxTree → Nat
  | ⟨_, d, _⟩ => d

def SyntaxTree.leaves : SyntaxTree → List SyntaxTree
  | ⟨_, _, ls⟩ => ls

/-- Indent of a tree node (`SyntaxTree.indent`, which delegates to its
node). -/
def SyntaxTree.indent (t : SyntaxTree) : Nat := t.node.indent

/-- Text of a tree node (`SyntaxTree.text`). -/
def SyntaxTree.text (t : SyntaxTree) : String := t.node.text

/-- Line number of a tree node (`SyntaxTree.line_num`). -/
def SyntaxTree.line_num (t : SyntaxTree) : Nat := t.node.line_num

/-- Column lookup on a tree (`SyntaxTree.get_position`, which delegates to
its node). -/
def SyntaxTree.get_position (t : SyntaxTree) (index : Int) : Nat :=
  t.node.get_position index

/-- Appending a leaf (`SyntaxTree.add_leaf`). -/
def addLeaf (child parent : SyntaxTree) : SyntaxTree :=
  ⟨parent.node, parent.depth, parent.leaves ++ [child]⟩

/-- Tokens dropped in abstract mode (`SyntaxTree._ignore_token`): all
whitespace tokens are excluded. -/
def ignore_token (tokens : List Token) : List Token :=
  tokens.filter (fun t => !(t.kind == TokenKind.whitespace))

/-- The synthetic root created as guard by `SyntaxTree.sqlptree`: depth 0,
line 0, no tokens. -/
def rootTree : SyntaxTree := ⟨⟨0, []⟩, 0, []⟩

/-- The ancestor stack representing the `parent_vertex` cursor chain of
`SyntaxTree.sqlptree`: head is the cursor, last is the synthetic root;
each entry carries the children attached to it so far. -/
abbrev Stack := List SyntaxTree

/-- The pop walk of `SyntaxTree.sqlptree`: while the new line's indent is
at most the cursor's indent and the cursor is not the root, the cursor
moves to its parent.  Moving up closes the cursor subtree and attaches it
as the next child of its parent. -/
def popWhileAux (ind : Nat) (top : SyntaxTree) : Stack → SyntaxTree × Stack
  | [] => (top, [])
  | p :: rest =>
    if ind ≤ top.indent ∧ 0 < top.depth then popWhileAux ind (addLeaf top p) rest
    else (top, p :: rest)

/-- Attaching one line (`SyntaxTree.sqlptree` loop body after the abstract
filtering): compute the indent, pop the cursor, then attach a fresh node
at `cursor.depth + 1` and make it the cursor. -/
def pushLine (st : Stack) (i : Nat) (tokens : List Token) : Stack :=
  let ind := indentOf tokens
  match st with
  | [] => []
  | t :: rest =>
    let pr := popWhileAux ind t rest
    ⟨⟨i + 1, tokens⟩, pr.1.depth + 1, []⟩ :: pr.1 :: pr.2

/-- One iteration of the `SyntaxTree.sqlptree` loop: in abstract mode the
whitespace tokens are stripped first and a line left empty is skipped
entirely. -/
def buildStep (is_abstract : Bool) (st : Stack) (p : Nat × List Token) : Stack :=
  if is_abstract then
    let ts := ignore_token p.2
    if ts.isEmpty then st else pushLine st p.1 ts
  else pushLine st p.1 p.2

/-- Closing the whole cursor chain at the end of `SyntaxTree.sqlptree`:
every still-open subtree is attached to its parent, yielding the root. -/
def collapseAux (top : SyntaxTree) : Stack → SyntaxTree
  | [] => top
  | p :: rest => collapseAux (addLeaf top p) rest

def collapse : Stack → SyntaxTree
  | [] => rootTree
  | t :: rest => collapseAux t rest

/-- The tokenizer applied line by line.  Modelled from the spec: the
`parse` function of the missing parser module splits the SQL text into its
lines and tokenizes each line (sections 4.1 and 4.2); the input text is
represented by its list of lines. -/
def parse_sql (lines : List String) : List (List Token) :=
  lines.map (fun l => tokenizeChars l.data)

/-- Tree construction (`SyntaxTree.sqlptree`): parse the text, then attach
each line below the cursor resulting from the pop walk; line numbers are
1-based. -/
def sqlptree (lines : List String) (is_abstract : Bool) : SyntaxTree :=
  collapse (((parse_sql lines).enum).foldl (buildStep is_abstract) [rootTree])

mutual

/-- Pre-order text emission from one subtree, the subtree's own text
first (`SyntaxTree._sqlftree` yields `leaf.text` then recurses, so a leaf
contributes itself and then its children). -/
def fullTexts : SyntaxTree → List String
  | ⟨nd, _, ls⟩ => nd.text :: fullTextsList ls

def fullTextsList : List SyntaxTree → List String
  | [] => []
  | t :: ts => fullTexts t ++ fullTextsList ts

end

/-- Text reconstruction (`SyntaxTree.sqlftree`): the pre-order texts of
all non-root nodes, joined with newlines. -/
def SyntaxTree.sqlftree (t : SyntaxTree) : String :=
  String.intercalate "\n" (fullTextsList t.leaves)

/-- Strict nesting below a node: every child's indent strictly exceeds its
own, recursively at every inner edge. -/
inductive Ascending : SyntaxTree → Prop where
  | intro : ∀ (nd : Node) (d : Nat) (ls : List SyntaxTree),
      (∀ c ∈ ls, nd.indent < c.indent) →
      (∀ c ∈ ls, Ascending c) → Ascending ⟨nd, d, ls⟩

/-- The nesting property exactly as claim C3 states it: the indent grows
strictly along every parent-child edge, the edges out of the synthetic
root included. -/
inductive StrictAll : SyntaxTree → Prop where
  | intro : ∀ (nd : Node) (d : Nat) (ls : List SyntaxTree),
      (∀ c ∈ ls, nd.indent < c.indent) →
      (∀ c ∈ ls, StrictAll c) → StrictAll ⟨nd, d, ls⟩

/-- Invariant of the ancestor stack during `SyntaxTree.sqlptree`: depths
increase by one towards the cursor, every already-attached child subtree
nests strictly, and the indent of each frame strictly exceeds its
parent's, except over the synthetic root at the bottom. -/
def GoodStack : Stack → Prop
  | [] => False
  | [r] => r.depth = 0 ∧ ∀ c ∈ r.leaves, Ascending c
  | t :: p :: rest =>
      t.depth = p.depth + 1 ∧
      (∀ c ∈ t.leaves, Ascending c ∧ t.indent < c.indent) ∧
      (rest ≠ [] → p.indent < t.indent) ∧
      GoodStack (p :: rest)

/-- A node of an abstract tree: a direct child of the root at depth 1, no
children of its own, indent 0, and no whitespace tokens. -/
def ChildFlat (c : SyntaxTree) : Prop :=
  c.depth = 1 ∧ c.leaves = [] ∧ c.indent = 0 ∧
    ∀ tk ∈ c.node.tokens, tk.kind ≠ TokenKind.whitespace

/-- Invariant of the ancestor stack in abstract mode: the stack is either
just the root, or the root plus the flat cursor pushed by the previous
line. -/
def FlatStack : Stack → Prop
  | [r] => r.depth = 0 ∧ r.indent = 0 ∧ ∀ c ∈ r.leaves, ChildFlat c
  | [t, r] => ChildFlat t ∧ r.depth = 0 ∧ r.indent = 0 ∧ ∀ c ∈ r.leaves, ChildFlat c
  | _ => False

/-- One part of a message template: literal text or a named placeholder.
The `Code` enum of `violation.py` stores Python format strings; each is
embedded here in structured form, one hole per `{name}` placeholder. -/
inductive TPart where
  | lit (s : String)
  | hole (name : String)
deriving DecidableEq

/-- A keyword-argument value of a violation: the `**kwargs` values are
heterogeneous (strings, numbers, token kinds). -/
inductive PValue where
  | s (v : String)
  | n (v : Nat)
  | k (v : TokenKind)
deriving DecidableEq

/-- Rendering of a token-kind constant (`Token.COMMA` and friends of the
missing parser module) inside a formatted message. -/
def kindStr : TokenKind → String
  | .whitespace => "Token.WHITESPACE"
  | .comment => "Token.COMMENT"
  | .keyword => "Token.KEYWORD"
  | .identifier => "Token.IDENTIFIER"
  | .literal => "Token.LITERAL"
  | .operator => "Token.OPERATOR"
  | .comma => "Token.COMMA"
  | .bracketLeft => "Token.BRACKET_LEFT"
  | .bracketRight => "Token.BRACKET_RIGHT"

def pvToString : PValue → String
  | .s v => v
  | .n v => toString v
  | .k v => kindStr v

/-- The closed rule catalog (`Code` of `violation.py`). -/
inductive Code where
  | INDENT_STEPS
  | WHITESPACE_MULTIPLE
  | WHITESPACE_AFTER_COMMA
  | WHITESPACE_BEFORE_COMMA
  | WHITESPACE_AFTER_BRACKET
  | WHITESPACE_BEFORE_BRACKET
  | WHITESPACE_AFTER_OPERATOR
  | WHITESPACE_BEFORE_OPERATOR
  | COMMA_HEAD
  | COMMA_END
  | KEYWORD_UPPER
  | KEYWORD_UPPER_HEAD
  | KEYWORD_LOWER
  | JOIN_TABLE
  | JOIN_CONTEXT
  | LINE_BlANK_MULTIPLE
  | LINE_ONLY_WHITESPACE
  | LINE_BREAK_BEFORE
  | LINE_BREAK_AFTER
deriving DecidableEq

/-- The stable string code of each catalog entry. -/
def Code.codeStr : Code → String
  | .INDENT_STEPS => "E101"
  | .WHITESPACE_MULTIPLE => "E201"
  | .WHITESPACE_AFTER_COMMA => "E202"
  | .WHITESPACE_BEFORE_COMMA => "E203"
  | .WHITESPACE_AFTER_BRACKET => "E204"
  | .WHITESPACE_BEFORE_BRACKET => "E205"
  | .WHITESPACE_AFTER_OPERATOR => "E206"
  | .WHITESPACE_BEFORE_OPERATOR => "E207"
  | .COMMA_HEAD => "E301"
  | .COMMA_END => "E302"
  | .KEYWORD_UPPER => "E401"
  | .KEYWORD_UPPER_HEAD => "E402"
  | .KEYWORD_LOWER => "E403"
  | .JOIN_TABLE => "E501"
  | .JOIN_CONTEXT => "E502"
  | .LINE_BlANK_MULTIPLE => "E601"
  | .LINE_ONLY_WHITESPACE => "E602"
  | .LINE_BREAK_BEFORE => "E603"
  | .LINE_BREAK_AFTER => "E604"

/-- The message template of each catalog entry, in structured form. -/
def Code.template : Code → List TPart
  | .INDENT_STEPS =>
    [.lit "indent steps must be ", .hole "expected", .lit " multiples, but ",
     .hole "actual", .lit " spaces"]
  | .WHITESPACE_MULTIPLE => [.lit "there are multiple whitespaces"]
  | .WHITESPACE_AFTER_COMMA => [.lit "whitespace must be after comma: ", .hole "target"]
  | .WHITESPACE_BEFORE_COMMA => [.lit "whitespace must not be before comma: ,"]
  | .WHITESPACE_AFTER_BRACKET => [.lit "whitespace must not be after bracket: ", .hole "target"]
  | .WHITESPACE_BEFORE_BRACKET => [.lit "whitespace must not be before bracket: ", .hole "target"]
  | .WHITESPACE_AFTER_OPERATOR => [.lit "whitespace must be after binary operator: ", .hole "target"]
  | .WHITESPACE_BEFORE_OPERATOR => [.lit "whitespace must be before binary operator: ", .hole "target"]
  | .COMMA_HEAD => [.lit "comma must be head of line"]
  | .COMMA_END => [.lit "comma must be end of line"]
  | .KEYWORD_UPPER =>
    [.lit "reserved keywords must be upper case: ", .hole "actual", .lit " -> ", .hole "expected"]
  | .KEYWORD_UPPER_HEAD =>
    [.lit "a head of reserved keywords must be upper case: ", .hole "actual", .lit " -> ",
     .hole "expected"]
  | .KEYWORD_LOWER =>
    [.lit "reserved keywords must be lower case: ", .hole "actual", .lit " -> ", .hole "expected"]
  | .JOIN_TABLE => [.lit "table_name must be at the same line as join context"]
  | .JOIN_CONTEXT => [.lit "join context must be fully: ", .hole "actual", .lit " -> ", .hole "expected"]
  | .LINE_BlANK_MULTIPLE => [.lit "there are multiple blank lines"]
  | .LINE_ONLY_WHITESPACE => [.lit "this line has only whitespace"]
  | .LINE_BREAK_BEFORE => [.lit "expected to break line after: ", .hole "target"]
  | .LINE_BREAK_AFTER => [.lit "expected to break line after: ", .hole "target"]

/-- A violation (`Violation` of `violation.py`): the flagged subtree, the
column position, the code, and the keyword parameters. -/
structure Violation where
  tree : SyntaxTree
  pos : Nat
  code : Code
  params : List (String × PValue)

/-- First-match lookup among the keyword parameters. -/
def lookupP : List (String × PValue) → String → Option PValue
  | [], _ => none
  | (k, v) :: rest, key => if k = key then some v else lookupP rest key

/-- Template instantiation, the model of Python `str.format`: literal
parts pass through; a placeholder whose name is absent from the
parameters fails (`KeyError`), carrying the missing name. -/
def renderParts : List TPart → List (String × PValue) → Except String String
  | [], _ => .ok ""
  | .lit s :: rest, ps => (renderParts rest ps).map (fun r => s ++ r)
  | .hole name :: rest, ps =>
    match lookupP ps name with
    | none => .error name
    | some v => (renderParts rest ps).map (fun r => pvToString v ++ r)

/-- Message rendering (`Violation.get_message`): the location prefix
`(L{line}, {pos}): ` followed by the code's template, formatted with
`line`, `pos` and the stored keyword parameters. -/
def Violation.get_message (v : Violation) : Except String String :=
  renderParts
    ([.lit "(L", .hole "line", .lit ", ", .hole "pos", .lit "): "] ++ v.code.template)
    (("line", .n v.tree.node.line_num) :: ("pos", .n v.pos) :: v.params)

/-- `IndentStepsViolation.__init__`: passes straight through with code
INDENT_STEPS, validating nothing. -/
def IndentStepsViolation (tree : SyntaxTree) (pos : Nat)
    (kwargs : List (String × PValue)) : Violation :=
  ⟨tree, pos, .INDENT_STEPS, kwargs⟩

/-- `KeywordStyleViolation.__init__`: requires a `style` keyword and maps
it to the style-specific code, rejecting unknown styles. -/
def KeywordStyleViolation (tree : SyntaxTree) (pos : Nat)
    (kwargs : List (String × PValue)) : Except String Violation :=
  match lookupP kwargs "style" with
  | none => .error "style must be passed."
  | some style =>
    if style = PValue.s "upper-all" then .ok ⟨tree, pos, .KEYWORD_UPPER, kwargs⟩
    else if style = PValue.s "upper-head" then .ok ⟨tree, pos, .KEYWORD_UPPER_HEAD, kwargs⟩
    else if style = PValue.s "lower" then .ok ⟨tree, pos, .KEYWORD_LOWER, kwargs⟩
    else .error "keyword style must be in [upper-all, upper-head, lower]"

/-- `CommaPositionViolation.__init__`: the positional `comma_position`
argument selects the code, rejecting unknown positions. -/
def CommaPositionViolation (tree : SyntaxTree) (pos : Nat) (comma_position : String)
    (kwargs : List (String × PValue)) : Except String Violation :=
  if comma_position = "head" then .ok ⟨tree, pos, .COMMA_HEAD, kwargs⟩
  else if comma_position = "end" then .ok ⟨tree, pos, .COMMA_END, kwargs⟩
  else .error "position must be in [head, end]"

/-- `MultiSpacesViolation.__init__`: passes straight through with code
WHITESPACE_MULTIPLE. -/
def MultiSpacesViolation (tree : SyntaxTree) (pos : Nat)
    (kwargs : List (String × PValue)) : Violation :=
  ⟨tree, pos, .WHITESPACE_MULTIPLE, kwargs⟩

/-- `WhitespaceViolation.__init__`: requires `token` and `position`
keywords; comma and operator tokens select the code by the before/after
position value, bracket tokens select it by the bracket side alone (the
position value is not inspected), and any other token kind is rejected. -/
def WhitespaceViolation (tree : SyntaxTree) (pos : Nat)
    (kwargs : List (String × PValue)) : Except String Violation :=
  match lookupP kwargs "token" with
  | none => .error "token must be passed."
  | some token =>
    match lookupP kwargs "position" with
    | none => .error "position must be passed."
    | some position =>
      if token = PValue.k .comma then
        if position = PValue.s "before" then .ok ⟨tree, pos, .WHITESPACE_BEFORE_COMMA, kwargs⟩
        else if position = PValue.s "after" then .ok ⟨tree, pos, .WHITESPACE_AFTER_COMMA, kwargs⟩
        else .error "whitespace position must be in [before, after]"
      else if token = PValue.k .bracketLeft then
        .ok ⟨tree, pos, .WHITESPACE_AFTER_BRACKET, kwargs⟩
      else if token = PValue.k .bracketRight then
        .ok ⟨tree, pos, .WHITESPACE_BEFORE_BRACKET, kwargs⟩
      else if token = PValue.k .operator then
        if position = PValue.s "before" then .ok ⟨tree, pos, .WHITESPACE_BEFORE_OPERATOR, kwargs⟩
        else if position = PValue.s "after" then .ok ⟨tree, pos, .WHITESPACE_AFTER_OPERATOR, kwargs⟩
        else .error "whitespace position must be in [before, after]"
      else .error "token kind must be in [comma, bracket_left, bracket_right, operator]"

/-- `JoinTableViolation.__init__`: passes straight through with code
JOIN_TABLE. -/
def JoinTableViolation (tree : SyntaxTree) (pos : Nat)
    (kwargs : List (String × PValue)) : Violation :=
  ⟨tree, pos, .JOIN_TABLE, kwargs⟩

/-- `JoinContextViolation.__init__`: passes straight through with code
JOIN_CONTEXT. -/
def JoinContextViolation (tree : SyntaxTree) (pos : Nat)
    (kwargs : List (String × PValue)) : Violation :=
  ⟨tree, pos, .JOIN_CONTEXT, kwargs⟩

/-- The validated configuration object the checkers receive (`Config` of
`config_loader.py` exposes accessors for exactly these four options, and
the spec, sections 4.3 and 6, guarantees the checkers always see
already-valid values). -/
structure Config where
  max_line_length : Nat
  comma_position : String
  keyword_style : String
  indent_steps : Nat

/-- All non-root nodes of a tree in source (pre-order) order. -/
def subtreesList : List SyntaxTree → List SyntaxTree
  | [] => []
  | ⟨nd, d, ls⟩ :: ts => ⟨nd, d, ls⟩ :: (subtreesList ls ++ subtreesList ts)

/-- Whether an indent is an exact non-negative multiple of the configured
step. -/
def isIndentMultiple (ind steps : Nat) : Bool :=
  if steps = 0 then ind == 0 else ind % steps == 0

/-- Modelled from the spec: `IndentStepsChecker` of the missing
`checker/base` module.  Every tree node's indent must be an exact
non-negative multiple of `indent-steps`; else emit
INDENT_STEPS(expected=steps, actual=indent) (section 4.3). -/
def IndentStepsChecker.check (tree : SyntaxTree) (config : Config) : List Violation :=
  (subtreesList tree.leaves).flatMap (fun t =>
    if isIndentMultiple t.indent config.indent_steps then []
    else [IndentStepsViolation t 1
      [("expected", .n config.indent_steps), ("actual", .n t.indent)]])

def isWsTokOpt (o : Option Token) : Bool :=
  match o with
  | some tk => tk.kind == TokenKind.whitespace
  | none => false

/-- Modelled from the spec: the per-line scan of `WhitespaceChecker` of
the missing `checker/base` module.  Token by token, looking at immediate
neighbours: no multiple whitespace (E201), one whitespace after and none
before a comma (E202/E203), none just inside brackets (E204/E205), one
around a binary operator (E206/E207) (section 4.3). -/
def WhitespaceChecker.checkNode (t : SyntaxTree) : List Violation :=
  let toks := t.node.tokens
  (List.range toks.length).flatMap (fun i =>
    match toks[i]? with
    | none => []
    | some tk =>
      let prev := if i = 0 then none else toks[i - 1]?
      let next := toks[i + 1]?
      let pos := t.get_position (Int.ofNat i)
      (if tk.kind == .whitespace && decide (1 < tk.word.length) && prev.isSome then
        [MultiSpacesViolation t pos []] else []) ++
      (if tk.kind == .comma && isWsTokOpt prev then
        [⟨t, pos, .WHITESPACE_BEFORE_COMMA,
          [("token", .k .comma), ("position", .s "before"), ("target", .s tk.word)]⟩]
       else []) ++
      (if tk.kind == .comma && next.isSome && !isWsTokOpt next then
        [⟨t, pos, .WHITESPACE_AFTER_COMMA,
          [("token", .k .comma), ("position", .s "after"), ("target", .s tk.word)]⟩]
       else []) ++
      (if tk.kind == .bracketLeft && isWsTokOpt next then
        [⟨t, pos, .WHITESPACE_AFTER_BRACKET,
          [("token", .k .bracketLeft), ("position", .s "after"), ("target", .s tk.word)]⟩]
       else []) ++
      (if tk.kind == .bracketRight && isWsTokOpt prev then
        [⟨t, pos, .WHITESPACE_BEFORE_BRACKET,
          [("token", .k .bracketRight), ("position", .s "before"), ("target", .s tk.word)]⟩]
       else []) ++
      (if tk.kind == .operator && prev.isSome && !isWsTokOpt prev then
        [⟨t, pos, .WHITESPACE_BEFORE_OPERATOR,
          [("token", .k .operator), ("position", .s "before"), ("target", .s tk.word)]⟩]
       else []) ++
      (if tk.kind == .operator && next.isSome && !isWsTokOpt next then
        [⟨t, pos, .WHITESPACE_AFTER_OPERATOR,
          [("token", .k .operator), ("position", .s "after"), ("target", .s tk.word)]⟩]
       else []))

/-- Modelled from the spec: `WhitespaceChecker` of the missing
`checker/base` module, applied to every node in source order. -/
def WhitespaceChecker.check (tree : SyntaxTree) (_config : Config) : List Violation :=
  (subtreesList tree.leaves).flatMap WhitespaceChecker.checkNode

/-- The correctly cased form of a keyword under a configured style
(section 4.3): upper-all, upper-head, or lower. -/
def expectedKeyword (style : String) (w : String) : String :=
  if style = "upper-all" then w.toUpper
  else if style = "upper-head" then
    String.mk (match w.data with
      | [] => []
      | c :: rest => Char.toUpper c :: rest.map Char.toLower)
  else w.toLower

def keywordStyleCode (style : String) : Code :=
  if style = "upper-all" then .KEYWORD_UPPER
  else if style = "upper-head" then .KEYWORD_UPPER_HEAD
  else .KEYWORD_LOWER

/-- Modelled from the spec: `KeywordStyleChecker` of the missing
`checker/base` module.  For every KEYWORD token whose casing differs from
the configured style, emit the style-specific code with the actual and
expected forms (section 4.3). -/
def KeywordStyleChecker.check (tree : SyntaxTree) (config : Config) : List Violation :=
  (subtreesList tree.leaves).flatMap (fun t =>
    (List.range t.node.tokens.length).flatMap (fun i =>
      match t.node.tokens[i]? with
      | none => []
      | some tk =>
        if tk.kind == .keyword then
          let expected := expectedKeyword config.keyword_style tk.word
          if tk.word ≠ expected then
            [⟨t, t.get_position (Int.ofNat i), keywordStyleCode config.keyword_style,
              [("style", .s config.keyword_style), ("actual", .s tk.word),
               ("expected", .s expected)]⟩]
          else []
        else []))

/-- Modelled from the spec: `CommaChecker` of the missing `checker/base`
module.  Under `head`, a comma must begin the following line rather than
end the current one; under `end`, it must terminate its line rather than
begin the next; surrounding whitespace is ignored when deciding start and
end of line (section 4.3). -/
def CommaChecker.check (tree : SyntaxTree) (config : Config) : List Violation :=
  (subtreesList tree.leaves).flatMap (fun t =>
    let trimmed := t.node.trip_kind [TokenKind.whitespace]
    if config.comma_position = "head" then
      match trimmed.tokens.getLast? with
      | some tk =>
        if tk.kind == .comma then
          [⟨t, t.get_position (Int.ofNat t.node.tokens.length), .COMMA_HEAD, []⟩]
        else []
      | none => []
    else if config.comma_position = "end" then
      match trimmed.tokens.head? with
      | some tk => if tk.kind == .comma then [⟨t, t.get_position 1, .COMMA_END, []⟩] else []
      | none => []
    else [])

/-- The fully spelled join forms (section 4.3). -/
def joinPhrases : List (List String) :=
  [["inner", "join"], ["left", "outer", "join"], ["right", "outer", "join"],
   ["full", "outer", "join"], ["cross", "join"]]

/-- The contiguous run of keywords ending at the join keyword at index
`i`, lowercased. -/
def joinPhraseAt (toks : List Token) (i : Nat) : List String :=
  (((toks.take i).reverse.takeWhile (fun tk => tk.kind == TokenKind.keyword)).reverse.map
    (fun tk => tk.word.toLower)) ++ ["join"]

/-- Modelled from the spec: `JoinChecker` of the missing `checker/base`
module.  (a) The table name after a join keyword sequence must be on the
same line, else JOIN_TABLE; (b) the sequence must match one of the fully
spelled forms, else JOIN_CONTEXT(actual, expected) (section 4.3). -/
def JoinChecker.check (tree : SyntaxTree) (_config : Config) : List Violation :=
  (subtreesList tree.leaves).flatMap (fun t =>
    let toks := ignore_token t.node.tokens
    (List.range toks.length).flatMap (fun i =>
      match toks[i]? with
      | none => []
      | some tk =>
        if tk.kind == .keyword && tk.word.toLower == "join" then
          (if (toks.drop (i + 1)).isEmpty then [JoinTableViolation t 1 []] else []) ++
          (let phrase := joinPhraseAt toks i
           if joinPhrases.contains phrase then []
           else [JoinContextViolation t 1
             [("actual", .s (String.intercalate " " phrase)), ("expected", .s "inner join")]])
        else []))

/-- The hand-maintained, fixed, ordered checker list of `check` in
`checker/tree.py`. -/
def checker_list : List (SyntaxTree → Config → List Violation) :=
  [IndentStepsChecker.check, WhitespaceChecker.check, KeywordStyleChecker.check,
   CommaChecker.check, JoinChecker.check]

/-- The orchestrator `check` of `checker/tree.py`: it extends one
violation list with each checker's output in the declared order, prints
each rendered message, and then falls through; the first component is the
sequence of printed messages, the second is the function's Python return
value — which is None, as the function body has no return statement. -/
def check (tree : SyntaxTree) (config : Config) :
    List (Except String String) × Option (List Violation) :=
  let violation_list := checker_list.foldl (fun acc c => acc ++ c tree config) []
  (violation_list.map Violation.get_message, none)

/-- `Node.__init__`: assigns through the validating `line_num` property
setter, which raises for a negative line number (tokens default to the
empty list). -/
def Node.init (line_num : Int) (tokens : List Token) : Except String Node :=
  if line_num < 0 then .error "line_num must be >= 0"
  else .ok ⟨line_num.toNat, tokens⟩

/-- The raw field state produced by `SyntaxTree.__init__`: the depth field
exactly as assigned — possibly negative — plus the owned node. -/
structure TreeInitState where
  depthField : Int
  node : Node
deriving DecidableEq

/-- `SyntaxTree.__init__`: writes `self._depth = depth` directly,
bypassing the validating `depth` property setter, so the depth is stored
unchecked; the node is built through `Node.__init__`, which does validate
the line number. -/
def SyntaxTree.init (depth : Int) (line_num : Int) (tokens : List Token) :
    Except String TreeInitState :=
  match Node.init line_num tokens with
  | .error e => .error e
  | .ok nd => .ok ⟨depth, nd⟩

/-- The `depth` property setter of `SyntaxTree`, which does validate — but
is only reached by later assignments, never by `__init__`. -/
def depthSet (s : TreeInitState) (value : Int) : Except String TreeInitState :=
  if value < 0 then .error "depth must be >= 0" else .ok ⟨value, s.node⟩

theorem dropWhile_length_le (p : α → Bool) : ∀ l : List α, (l.dropWhile p).length ≤ l.length := by
  intro l
  induction l with
  | nil => simp
  | cons a l ih =>
    by_cases h : p a
    · simp [List.dropWhile, h]; omega
    · simp [List.dropWhile, h]

theorem nextTokenSingle_word (c : Char) (cs : List Char) :
    (nextTokenSingle c cs).1.word.data ++ (nextTokenSingle c cs).2 = c :: cs := by
  unfold nextTokenSingle
  split
  · simp
  · split
    · simp
    · split
      · simp
      · split
        · simp
        · simp [List.takeWhile_append_dropWhile]

theorem nextTokenSingle_len (c : Char) (cs : List Char) :
    (nextTokenSingle c cs).2.length ≤ cs.length := by
  unfold nextTokenSingle
  split
  · simp
  · split
    · simp
    · split
      · simp
      · split
        · simp
        · simpa using dropWhile_length_le isWordChar cs

theorem nextToken_word (c : Char) (cs : List Char) :
    (nextToken c cs).1.word.data ++ (nextToken c cs).2 = c :: cs := by
  unfold nextToken
  split
  · simp [List.takeWhile_append_dropWhile]
  · split
    · simp
    · split
      · split
        · simp
        · apply nextTokenSingle_word
      · apply nextTokenSingle_word

theorem nextToken_len (c : Char) (cs : List Char) :
    (nextToken c cs).2.length ≤ cs.length := by
  unfold nextToken
  split
  · simpa using dropWhile_length_le isWSChar cs
  · split
    · simp
    · split
      · split
        · simp
        · apply nextTokenSingle_len
      · apply nextTokenSingle_len

theorem tokenizeFuel_flatten :
    ∀ (fuel : Nat) (l : List Char), l.length ≤ fuel →
      ((tokenizeFuel fuel l).map (fun t => t.word.data)).flatten = l := by
  intro fuel
  induction fuel with
  | zero =>
    intro l h
    match l with
    | [] => simp [tokenizeFuel]
    | _ :: _ => simp at h
  | succ n ih =>
    intro l h
    match l with
    | [] => simp [tokenizeFuel]
    | c :: cs =>
      have hlen : (nextToken c cs).2.length ≤ n := by
        have := nextToken_len c cs
        simp at h
        omega
      simp only [tokenizeFuel, List.map_cons, List.flatten_cons]
      rw [ih _ hlen, nextToken_word]

/-- Lossless tokenization: concatenating the texts of the tokens of a line
reproduces the line exactly. -/
theorem tokenizeChars_flatten (l : List Char) :
    ((tokenizeChars l).map (fun t => t.word.data)).flatten = l :=
  tokenizeFuel_flatten l.length l (Nat.le_refl _)

theorem fullTextsList_append (xs ys : List SyntaxTree) :
    fullTextsList (xs ++ ys) = fullTextsList xs ++ fullTextsList ys := by
  induction xs with
  | nil => simp [fullTextsList]
  | cons t ts ih => simp [fullTextsList, ih]

theorem fullTexts_addLeaf (c p : SyntaxTree) :
    fullTexts (addLeaf c p) = fullTexts p ++ fullTexts c := by
  match p with
  | ⟨nd, d, ls⟩ =>
    simp [addLeaf, SyntaxTree.node, SyntaxTree.depth, SyntaxTree.leaves,
      fullTexts, fullTextsList_append, fullTextsList]

theorem collapseAux_addLeaf :
    ∀ (rest : Stack) (top c : SyntaxTree),
      fullTexts (collapseAux (addLeaf c top) rest) =
        fullTexts (collapseAux top rest) ++ fullTexts c := by
  intro rest
  induction rest with
  | nil => intro top c; simpa [collapseAux] using fullTexts_addLeaf c top
  | cons p rs ih =>
    intro top c
    show fullTexts (collapseAux (addLeaf (addLeaf c top) p) rs) = _
    rw [ih p (addLeaf c top), fullTexts_addLeaf c top]
    show _ = fullTexts (collapseAux (addLeaf top p) rs) ++ fullTexts c
    rw [ih p top]
    simp

theorem popWhileAux_collapse :
    ∀ (rest : Stack) (top : SyntaxTree) (ind : Nat),
      collapseAux (popWhileAux ind top rest).1 (popWhileAux ind top rest).2 =
        collapseAux top rest := by
  intro rest
  induction rest with
  | nil => intro top ind; rfl
  | cons p rs ih =>
    intro top ind
    by_cases h : ind ≤ top.indent ∧ 0 < top.depth
    · have heq : popWhileAux ind top (p :: rs) = popWhileAux ind (addLeaf top p) rs := by
        simp [popWhileAux, h]
      rw [heq, ih (addLeaf top p) ind]
      rfl
    · have heq : popWhileAux ind top (p :: rs) = (top, p :: rs) := by
        simp [popWhileAux, h]
      rw [heq]

theorem pushLine_fullTexts (t : SyntaxTree) (rest : Stack) (i : Nat) (toks : List Token) :
    fullTexts (collapse (pushLine (t :: rest) i toks)) =
      fullTexts (collapse (t :: rest)) ++ [Node.text ⟨i + 1, toks⟩] := by
  show fullTexts (collapseAux ⟨⟨i + 1, toks⟩, _, []⟩ ((popWhileAux (indentOf toks) t rest).1
    :: (popWhileAux (indentOf toks) t rest).2)) = _
  show fullTexts (collapseAux (addLeaf ⟨⟨i + 1, toks⟩, _, []⟩
    (popWhileAux (indentOf toks) t rest).1) (popWhileAux (indentOf toks) t rest).2) = _
  rw [collapseAux_addLeaf, popWhileAux_collapse]
  simp [fullTexts, fullTextsList, collapse]

theorem pushLine_cons (t : SyntaxTree) (rest : Stack) (i : Nat) (toks : List Token) :
    pushLine (t :: rest) i toks =
      (⟨⟨i + 1, toks⟩, (popWhileAux (indentOf toks) t rest).1.depth + 1, []⟩ : SyntaxTree)
        :: (popWhileAux (indentOf toks) t rest).1 :: (popWhileAux (indentOf toks) t rest).2 := rfl

theorem foldl_buildStep_fullTexts :
    ∀ (ps : List (Nat × List Token)) (t : SyntaxTree) (rest : Stack),
      fullTexts (collapse (ps.foldl (buildStep false) (t :: rest))) =
        fullTexts (collapse (t :: rest)) ++
          ps.map (fun p => Node.text ⟨p.1 + 1, p.2⟩) := by
  intro ps
  induction ps with
  | nil => intro t rest; simp
  | cons p ps ih =>
    intro t rest
    show fullTexts (collapse (ps.foldl (buildStep false) (pushLine (t :: rest) p.1 p.2))) = _
    rw [pushLine_cons, ih, ← pushLine_cons, pushLine_fullTexts]
    simp

theorem string_foldl_append_data (l : List String) :
    ∀ a : String, (l.foldl (fun r s => r ++ s) a).data = a.data ++ (l.map String.data).flatten := by
  induction l with
  | nil => intro a; simp
  | cons s rest ih =>
    intro a
    show (rest.foldl (fun r s => r ++ s) (a ++ s)).data = _
    rw [ih (a ++ s)]
    simp [String.data_append]

theorem string_join_data (l : List String) :
    (String.join l).data = (l.map String.data).flatten := by
  show (l.foldl (fun r s => r ++ s) "").data = _
  rw [string_foldl_append_data]
  rfl

/-- Per-line losslessness at the level of node texts: the text of a line's
token sequence is the line itself. -/
theorem text_tokenizeChars (s : String) :
    Node.text ⟨0, tokenizeChars s.data⟩ = s := by
  apply String.ext
  show (String.join ((tokenizeChars s.data).map (fun t => t.word))).data = s.data
  rw [string_join_data, List.map_map]
  exact tokenizeChars_flatten s.data

theorem node_text_tokens (k : Nat) (toks : List Token) :
    Node.text ⟨k, toks⟩ = Node.text ⟨0, toks⟩ := rfl

theorem enumFrom_map_snd_apply {α β : Type} (g : α → β) :
    ∀ (n : Nat) (l : List α), (List.enumFrom n l).map (fun p => g p.2) = l.map g := by
  intro n l
  induction l generalizing n with
  | nil => rfl
  | cons a as ih => simp [List.enumFrom, ih]

/-- C1.  Round-trip: building a non-abstract tree with `sqlptree` and
reconstructing the text with `sqlftree` (pre-order, each node's text
before its children, joined with newlines) yields exactly the original
input, line for line. -/
theorem sqlptree_sqlftree_round_trip (lines : List String) :
    (sqlptree lines false).sqlftree = String.intercalate "\n" lines := by
  have hfold := foldl_buildStep_fullTexts ((parse_sql lines).enum) rootTree []
  have hroot : fullTexts (collapse ([rootTree] : Stack)) = [""] := rfl
  rw [hroot] at hfold
  have htexts : ((parse_sql lines).enum).map (fun p => Node.text ⟨p.1 + 1, p.2⟩) = lines := by
    have h1 : ((parse_sql lines).enum).map (fun p => Node.text ⟨p.1 + 1, p.2⟩) =
        ((parse_sql lines).enum).map (fun p => Node.text ⟨0, p.2⟩) := by
      apply List.map_congr_left
      intro p _
      exact node_text_tokens (p.1 + 1) p.2
    rw [h1]
    show ((parse_sql lines).enumFrom 0).map (fun p => Node.text ⟨0, p.2⟩) = lines
    rw [enumFrom_map_snd_apply (fun toks => Node.text ⟨0, toks⟩) 0 (parse_sql lines)]
    show (lines.map (fun l => tokenizeChars l.data)).map (fun toks => Node.text ⟨0, toks⟩) = lines
    rw [List.map_map]
    have h2 : ∀ l ∈ lines,
        ((fun toks => Node.text ⟨0, toks⟩) ∘ fun l => tokenizeChars l.data) l = id l := by
      intro l _
      exact text_tokenizeChars l
    rw [List.map_congr_left h2, List.map_id]
  rw [htexts] at hfold
  show String.intercalate "\n"
    (fullTextsList (collapse (((parse_sql lines).enum).foldl (buildStep false) [rootTree])).leaves) = _
  match hc : collapse (((parse_sql lines).enum).foldl (buildStep false) [rootTree]) with
  | ⟨nd, d, ls⟩ =>
    rw [hc] at hfold
    have : nd.text :: fullTextsList ls = "" :: lines := by
      simpa [fullTexts] using hfold
    have hls : fullTextsList ls = lines := (List.cons.injEq _ _ _ _).mp this |>.2
    simpa [SyntaxTree.leaves] using congrArg (String.intercalate "\n") hls

theorem depth_mk (nd : Node) (d : Nat) (ls : List SyntaxTree) :
    SyntaxTree.depth ⟨nd, d, ls⟩ = d := rfl

theorem leaves_mk (nd : Node) (d : Nat) (ls : List SyntaxTree) :
    SyntaxTree.leaves ⟨nd, d, ls⟩ = ls := rfl

theorem node_mk (nd : Node) (d : Nat) (ls : List SyntaxTree) :
    SyntaxTree.node ⟨nd, d, ls⟩ = nd := rfl

theorem indent_mk (nd : Node) (d : Nat) (ls : List SyntaxTree) :
    SyntaxTree.indent ⟨nd, d, ls⟩ = nd.indent := rfl

theorem addLeaf_depth (c p : SyntaxTree) : (addLeaf c p).depth = p.depth := rfl

theorem addLeaf_indent (c p : SyntaxTree) : (addLeaf c p).indent = p.indent := rfl

theorem addLeaf_node (c p : SyntaxTree) : (addLeaf c p).node = p.node := rfl

theorem addLeaf_leaves (c p : SyntaxTree) : (addLeaf c p).leaves = p.leaves ++ [c] := rfl

theorem ascending_of_parts (t : SyntaxTree)
    (h : ∀ c ∈ t.leaves, Ascending c ∧ t.indent < c.indent) : Ascending t := by
  match t with
  | ⟨nd, d, ls⟩ =>
    exact Ascending.intro nd d ls (fun c hc => (h c hc).2) (fun c hc => (h c hc).1)

theorem goodStack_merge :
    ∀ (rest : Stack) (t p : SyntaxTree),
      GoodStack (t :: p :: rest) → GoodStack (addLeaf t p :: rest) := by
  intro rest t p h
  match rest with
  | [] =>
    obtain ⟨hd, hleaves, _, hp⟩ := h
    obtain ⟨hpd, hpl⟩ := hp
    refine ⟨by simpa [addLeaf_depth] using hpd, ?_⟩
    intro c hc
    rw [addLeaf_leaves] at hc
    rcases List.mem_append.mp hc with hc | hc
    · exact hpl c hc
    · rw [List.mem_singleton.mp hc]
      exact ascending_of_parts t hleaves
  | q :: rs =>
    obtain ⟨hd, hleaves, hind, hp⟩ := h
    obtain ⟨hpd, hpleaves, hpind, hq⟩ := hp
    refine ⟨by simpa [addLeaf_depth] using hpd, ?_, ?_, hq⟩
    · intro c hc
      rw [addLeaf_leaves] at hc
      rcases List.mem_append.mp hc with hc | hc
      · simpa [addLeaf_indent] using hpleaves c hc
      · rw [List.mem_singleton.mp hc]
        refine ⟨ascending_of_parts t hleaves, ?_⟩
        simpa [addLeaf_indent] using hind (by simp)
    · intro hne
      simpa [addLeaf_indent] using hpind hne

theorem goodStack_popWhileAux :
    ∀ (rest : Stack) (top : SyntaxTree) (ind : Nat),
      GoodStack (top :: rest) →
      GoodStack ((popWhileAux ind top rest).1 :: (popWhileAux ind top rest).2) ∧
        ((popWhileAux ind top rest).2 = [] ∨ (popWhileAux ind top rest).1.indent < ind) := by
  intro rest
  induction rest with
  | nil =>
    intro top ind h
    exact ⟨h, Or.inl rfl⟩
  | cons p rs ih =>
    intro top ind h
    by_cases hc : ind ≤ top.indent ∧ 0 < top.depth
    · have heq : popWhileAux ind top (p :: rs) = popWhileAux ind (addLeaf top p) rs := by
        simp [popWhileAux, hc]
      rw [heq]
      exact ih (addLeaf top p) ind (goodStack_merge rs top p h)
    · have heq : popWhileAux ind top (p :: rs) = (top, p :: rs) := by
        simp [popWhileAux, hc]
      rw [heq]
      refine ⟨h, Or.inr ?_⟩
      show top.indent < ind
      have hd : top.depth = p.depth + 1 := h.1
      rcases Decidable.not_and_iff_or_not.mp hc with hlt | hdep
      · omega
      · omega

theorem goodStack_pushLine (st : Stack) (i : Nat) (toks : List Token)
    (h : GoodStack st) : GoodStack (pushLine st i toks) := by
  match st with
  | [] => exact absurd h id
  | t :: rest =>
    obtain ⟨hgood, hstop⟩ := goodStack_popWhileAux rest t (indentOf toks) h
    rw [pushLine_cons]
    refine ⟨rfl, by simp [leaves_mk], ?_, hgood⟩
    intro hne
    rcases hstop with he | hlt
    · exact absurd he hne
    · simpa [indent_mk, Node.indent] using hlt

theorem goodStack_buildStep (ab : Bool) (st : Stack) (p : Nat × List Token)
    (h : GoodStack st) : GoodStack (buildStep ab st p) := by
  match ab with
  | false =>
    show GoodStack (pushLine st p.1 p.2)
    exact goodStack_pushLine st p.1 p.2 h
  | true =>
    show GoodStack
      (if (ignore_token p.2).isEmpty = true then st else pushLine st p.1 (ignore_token p.2))
    by_cases he : (ignore_token p.2).isEmpty = true
    · rw [if_pos he]; exact h
    · rw [if_neg he]; exact goodStack_pushLine st p.1 (ignore_token p.2) h

theorem goodStack_foldl (ab : Bool) :
    ∀ (ps : List (Nat × List Token)) (st : Stack),
      GoodStack st → GoodStack (ps.foldl (buildStep ab) st) := by
  intro ps
  induction ps with
  | nil => intro st h; exact h
  | cons p ps ih =>
    intro st h
    exact ih (buildStep ab st p) (goodStack_buildStep ab st p h)

theorem goodStack_collapseAux :
    ∀ (rest : Stack) (top : SyntaxTree),
      GoodStack (top :: rest) → ∀ c ∈ (collapseAux top rest).leaves, Ascending c := by
  intro rest
  induction rest with
  | nil =>
    intro top h
    exact h.2
  | cons p rs ih =>
    intro top h
    exact ih (addLeaf top p) (goodStack_merge rs top p h)

/-- C3 (amended).  In every tree built by `sqlptree`, the indent grows
strictly along every parent-child edge below the synthetic root: children
of the root are unconstrained relative to the root, but inside each of
those subtrees every child's indent strictly exceeds its parent's. -/
theorem sqlptree_nesting_strict_below_root (lines : List String) (is_abstract : Bool) :
    ∀ c ∈ (sqlptree lines is_abstract).leaves, Ascending c := by
  have hroot : GoodStack [rootTree] := ⟨rfl, by simp [rootTree, leaves_mk]⟩
  have hfold := goodStack_foldl is_abstract ((parse_sql lines).enum) [rootTree] hroot
  unfold sqlptree
  match hst : ((parse_sql lines).enum).foldl (buildStep is_abstract) [rootTree] with
  | [] => rw [hst] at hfold; exact absurd hfold id
  | t :: rest =>
    rw [hst] at hfold
    exact goodStack_collapseAux rest t hfold

/-- C3 witness: the single line `"a"` attaches one child below the root,
and that subtree nests strictly (trivially, having no children). -/
theorem sqlptree_nesting_strict_below_root_witness :
    Ascending ⟨⟨1, [⟨TokenKind.identifier, "a"⟩]⟩, 1, []⟩ := by
  apply sqlptree_nesting_strict_below_root ["a"] false
  rw [show (sqlptree ["a"] false).leaves =
    [⟨⟨1, [⟨TokenKind.identifier, "a"⟩]⟩, 1, []⟩] from rfl]
  exact List.mem_singleton_self _

/-- C3 counterexample: on the single unindented line `"a"`, the built tree
has a child of the synthetic root whose indent equals the root's indent 0,
so the claim as stated — strict increase at every non-root node, children
of the root included — is false. -/
theorem sqlptree_nesting_strict_counterexample :
    ¬ StrictAll (sqlptree ["a"] false) := by
  intro h
  rw [show sqlptree ["a"] false =
    ⟨⟨0, []⟩, 0, [⟨⟨1, [⟨TokenKind.identifier, "a"⟩]⟩, 1, []⟩]⟩ from rfl] at h
  cases h with
  | intro nd d ls hlt hrec =>
    have := hlt _ (List.mem_singleton_self _)
    exact Nat.lt_irrefl 0 this

theorem ignore_token_no_ws (toks : List Token) :
    ∀ tk ∈ ignore_token toks, tk.kind ≠ TokenKind.whitespace := by
  intro tk h
  have := List.of_mem_filter h
  simpa using this

theorem indentOf_no_ws (ts : List Token)
    (h : ∀ tk ∈ ts, tk.kind ≠ TokenKind.whitespace) : indentOf ts = 0 := by
  match ts with
  | [] => rfl
  | tk :: rest =>
    have := h tk (by simp)
    simp [indentOf, this]

theorem flatStack_pushLine (st : Stack) (i : Nat) (ts : List Token)
    (hst : FlatStack st) (hts : ∀ tk ∈ ts, tk.kind ≠ TokenKind.whitespace) :
    FlatStack (pushLine st i ts) := by
  have hind : indentOf ts = 0 := indentOf_no_ws ts hts
  match st with
  | [r] =>
    obtain ⟨hd, hi, hl⟩ := hst
    rw [pushLine_cons]
    show FlatStack [⟨⟨i + 1, ts⟩, (popWhileAux (indentOf ts) r []).1.depth + 1, []⟩,
      (popWhileAux (indentOf ts) r []).1]
    rw [show popWhileAux (indentOf ts) r [] = (r, []) from rfl]
    exact ⟨⟨by simp [depth_mk, hd], by simp [leaves_mk], by simp [indent_mk, Node.indent, hind], hts⟩,
      hd, hi, hl⟩
  | [t, r] =>
    obtain ⟨⟨htd, htl, hti, htw⟩, hd, hi, hl⟩ := hst
    rw [pushLine_cons]
    have hpop : popWhileAux (indentOf ts) t [r] = (addLeaf t r, []) := by
      have hcond : indentOf ts ≤ t.indent ∧ 0 < t.depth := by
        constructor
        · omega
        · omega
      simp [popWhileAux, hcond]
    rw [hpop]
    show FlatStack [⟨⟨i + 1, ts⟩, (addLeaf t r).depth + 1, []⟩, addLeaf t r]
    refine ⟨⟨?_, by simp [leaves_mk], by simp [indent_mk, Node.indent, hind], hts⟩, ?_, ?_, ?_⟩
    · simp [depth_mk, addLeaf_depth, hd]
    · simp [addLeaf_depth, hd]
    · simp [addLeaf_indent, hi]
    · intro c hc
      rw [addLeaf_leaves] at hc
      rcases List.mem_append.mp hc with hc | hc
      · exact hl c hc
      · rw [List.mem_singleton.mp hc]
        exact ⟨htd, htl, hti, htw⟩
  | [] => exact absurd hst id
  | a :: b :: c :: rest => exact absurd hst id

theorem flatStack_foldl :
    ∀ (ps : List (Nat × List Token)) (st : Stack),
      FlatStack st → FlatStack (ps.foldl (buildStep true) st) := by
  intro ps
  induction ps with
  | nil => intro st h; exact h
  | cons p ps ih =>
    intro st h
    apply ih
    show FlatStack
      (if (ignore_token p.2).isEmpty = true then st else pushLine st p.1 (ignore_token p.2))
    by_cases he : (ignore_token p.2).isEmpty = true
    · rw [if_pos he]; exact h
    · rw [if_neg he]; exact flatStack_pushLine st p.1 (ignore_token p.2) h (ignore_token_no_ws p.2)

/-- C10.  Every node of an abstract tree is a direct child of the
synthetic root at depth 1, carries no whitespace tokens (they are removed
before attachment), has indent 0, and has no children: the abstract tree
is flat. -/
theorem sqlptree_abstract_flat (lines : List String) :
    ∀ c ∈ (sqlptree lines true).leaves,
      c.depth = 1 ∧ c.leaves = [] ∧ c.indent = 0 ∧
        ∀ tk ∈ c.node.tokens, tk.kind ≠ TokenKind.whitespace := by
  have hroot : FlatStack [rootTree] := ⟨rfl, rfl, by simp [rootTree, leaves_mk]⟩
  have hfold := flatStack_foldl ((parse_sql lines).enum) [rootTree] hroot
  unfold sqlptree
  match hst : ((parse_sql lines).enum).foldl (buildStep true) [rootTree] with
  | [] => rw [hst] at hfold; exact absurd hfold id
  | [r] =>
    rw [hst] at hfold
    exact fun c hc => hfold.2.2 c hc
  | [t, r] =>
    rw [hst] at hfold
    obtain ⟨hflat, hd, hi, hl⟩ := hfold
    show ∀ c ∈ (addLeaf t r).leaves, _
    intro c hc
    rw [addLeaf_leaves] at hc
    rcases List.mem_append.mp hc with hc | hc
    · exact hl c hc
    · rw [List.mem_singleton.mp hc]
      exact hflat
  | a :: b :: c :: rest =>
    rw [hst] at hfold
    exact absurd hfold id

/-- C10 witness: for the input line `"  a"` the abstract tree has the
stripped node as a flat child of the root. -/
theorem sqlptree_abstract_flat_witness :
    (⟨⟨1, [⟨TokenKind.identifier, "a"⟩]⟩, 1, []⟩ : SyntaxTree).depth = 1 ∧
      (⟨⟨1, [⟨TokenKind.identifier, "a"⟩]⟩, 1, []⟩ : SyntaxTree).leaves = [] ∧
      (⟨⟨1, [⟨TokenKind.identifier, "a"⟩]⟩, 1, []⟩ : SyntaxTree).indent = 0 ∧
      ∀ tk ∈ (⟨⟨1, [⟨TokenKind.identifier, "a"⟩]⟩, 1, []⟩ : SyntaxTree).node.tokens,
        tk.kind ≠ TokenKind.whitespace := by
  apply sqlptree_abstract_flat ["  a"]
  rw [show (sqlptree ["  a"] true).leaves =
    [⟨⟨1, [⟨TokenKind.identifier, "a"⟩]⟩, 1, []⟩] from rfl]
  exact List.mem_singleton_self _

/-- C5 counterexample: `IndentStepsViolation` can be constructed with no
keyword parameters at all — construction does not raise — and rendering
the message of that successfully constructed violation then fails on the
missing `expected` parameter, contradicting the claim that a missing
required parameter is always rejected at construction time. -/
theorem indent_steps_violation_message_fails :
    Violation.get_message (IndentStepsViolation rootTree 1 []) = Except.error "expected" := rfl

/-- C5 (amended).  `KeywordStyleViolation` rejects a missing `style` and
`WhitespaceViolation` rejects a missing `token` or `position` at
construction time, but the parameters a message template requires (such
as `expected` and `actual` of INDENT_STEPS) are not validated by any
constructor: `IndentStepsViolation` constructs without them and
`get_message` then fails at render time. -/
theorem violation_param_validation :
    (∀ (t : SyntaxTree) (p : Nat) (kw : List (String × PValue)),
      lookupP kw "style" = none → KeywordStyleViolation t p kw = .error "style must be passed.") ∧
    (∀ (t : SyntaxTree) (p : Nat) (kw : List (String × PValue)),
      lookupP kw "token" = none → WhitespaceViolation t p kw = .error "token must be passed.") ∧
    (∀ (t : SyntaxTree) (p : Nat) (kw : List (String × PValue)) (tv : PValue),
      lookupP kw "token" = some tv → lookupP kw "position" = none →
        WhitespaceViolation t p kw = .error "position must be passed.") ∧
    (∀ (t : SyntaxTree) (p : Nat),
      Violation.get_message (IndentStepsViolation t p []) = Except.error "expected") := by
  refine ⟨?_, ?_, ?_, ?_⟩
  · intro t p kw h
    unfold KeywordStyleViolation
    rw [h]
  · intro t p kw h
    unfold WhitespaceViolation
    rw [h]
  · intro t p kw tv h1 h2
    unfold WhitespaceViolation
    rw [h1, h2]
  · intro t p
    rfl

/-- C5 witness: the three validations fire at concrete inputs, and
rendering fails for a concretely constructed IndentStepsViolation. -/
theorem violation_param_validation_witness :
    KeywordStyleViolation rootTree 1 [] = .error "style must be passed." ∧
    WhitespaceViolation rootTree 1 [] = .error "token must be passed." ∧
    WhitespaceViolation rootTree 1 [("token", PValue.k .comma)] = .error "position must be passed." ∧
    Violation.get_message (IndentStepsViolation rootTree 7 []) = Except.error "expected" := by
  obtain ⟨h1, h2, h3, h4⟩ := violation_param_validation
  exact ⟨h1 rootTree 1 [] rfl, h2 rootTree 1 [] rfl,
    h3 rootTree 1 [("token", PValue.k .comma)] (PValue.k .comma) rfl rfl, h4 rootTree 7⟩

/-- C6 counterexample: `WhitespaceViolation` with a bracket token accepts
any `position` value — here the unrecognized value `"sideways"` — and
silently selects WHITESPACE_AFTER_BRACKET, contradicting the claim that a
position value other than before/after is always rejected. -/
theorem whitespace_violation_bracket_position_not_checked :
    WhitespaceViolation rootTree 1
        [("token", PValue.k .bracketLeft), ("position", PValue.s "sideways")] =
      .ok ⟨rootTree, 1, .WHITESPACE_AFTER_BRACKET,
        [("token", PValue.k .bracketLeft), ("position", PValue.s "sideways")]⟩ := rfl

/-- C6 (amended).  The discriminator dispatch of the violation
constructors: `KeywordStyleViolation` maps upper-all/upper-head/lower to
KEYWORD_UPPER/KEYWORD_UPPER_HEAD/KEYWORD_LOWER and rejects any other
style; `CommaPositionViolation` maps head/end to COMMA_HEAD/COMMA_END and
rejects otherwise; `WhitespaceViolation` rejects any token kind outside
comma/brackets/operator, and rejects a position value other than
before/after for comma and operator tokens only — for bracket tokens the
position value is not inspected and the code is chosen by the bracket
side alone. -/
theorem violation_discriminator_dispatch :
    (∀ (t : SyntaxTree) (p : Nat) (kw : List (String × PValue)),
      lookupP kw "style" = some (PValue.s "upper-all") →
        KeywordStyleViolation t p kw = .ok ⟨t, p, .KEYWORD_UPPER, kw⟩) ∧
    (∀ (t : SyntaxTree) (p : Nat) (kw : List (String × PValue)),
      lookupP kw "style" = some (PValue.s "upper-head") →
        KeywordStyleViolation t p kw = .ok ⟨t, p, .KEYWORD_UPPER_HEAD, kw⟩) ∧
    (∀ (t : SyntaxTree) (p : Nat) (kw : List (String × PValue)),
      lookupP kw "style" = some (PValue.s "lower") →
        KeywordStyleViolation t p kw = .ok ⟨t, p, .KEYWORD_LOWER, kw⟩) ∧
    (∀ (t : SyntaxTree) (p : Nat) (kw : List (String × PValue)) (v : PValue),
      lookupP kw "style" = some v →
        v ≠ PValue.s "upper-all" → v ≠ PValue.s "upper-head" → v ≠ PValue.s "lower" →
        KeywordStyleViolation t p kw =
          .error "keyword style must be in [upper-all, upper-head, lower]") ∧
    (∀ (t : SyntaxTree) (p : Nat) (kw : List (String × PValue)),
      CommaPositionViolation t p "head" kw = .ok ⟨t, p, .COMMA_HEAD, kw⟩) ∧
    (∀ (t : SyntaxTree) (p : Nat) (kw : List (String × PValue)),
      CommaPositionViolation t p "end" kw = .ok ⟨t, p, .COMMA_END, kw⟩) ∧
    (∀ (t : SyntaxTree) (p : Nat) (kw : List (String × PValue)) (s : String),
      s ≠ "head" → s ≠ "end" →
        CommaPositionViolation t p s kw = .error "position must be in [head, end]") ∧
    (∀ (t : SyntaxTree) (p : Nat) (kw : List (String × PValue)),
      lookupP kw "token" = some (PValue.k .comma) →
        lookupP kw "position" = some (PValue.s "before") →
        WhitespaceViolation t p kw = .ok ⟨t, p, .WHITESPACE_BEFORE_COMMA, kw⟩) ∧
    (∀ (t : SyntaxTree) (p : Nat) (kw : List (String × PValue)),
      lookupP kw "token" = some (PValue.k .comma) →
        lookupP kw "position" = some (PValue.s "after") →
        WhitespaceViolation t p kw = .ok ⟨t, p, .WHITESPACE_AFTER_COMMA, kw⟩) ∧
    (∀ (t : SyntaxTree) (p : Nat) (kw : List (String × PValue)) (pv : PValue),
      lookupP kw "token" = some (PValue.k .comma) →
        lookupP kw "position" = some pv →
        pv ≠ PValue.s "before" → pv ≠ PValue.s "after" →
        WhitespaceViolation t p kw = .error "whitespace position must be in [before, after]") ∧
    (∀ (t : SyntaxTree) (p : Nat) (kw : List (String × PValue)) (pv : PValue),
      lookupP kw "token" = some (PValue.k .bracketLeft) →
        lookupP kw "position" = some pv →
        WhitespaceViolation t p kw = .ok ⟨t, p, .WHITESPACE_AFTER_BRACKET, kw⟩) ∧
    (∀ (t : SyntaxTree) (p : Nat) (kw : List (String × PValue)) (pv : PValue),
      lookupP kw "token" = some (PValue.k .bracketRight) →
        lookupP kw "position" = some pv →
        WhitespaceViolation t p kw = .ok ⟨t, p, .WHITESPACE_BEFORE_BRACKET, kw⟩) ∧
    (∀ (t : SyntaxTree) (p : Nat) (kw : List (String × PValue)),
      lookupP kw "token" = some (PValue.k .operator) →
        lookupP kw "position" = some (PValue.s "before") →
        WhitespaceViolation t p kw = .ok ⟨t, p, .WHITESPACE_BEFORE_OPERATOR, kw⟩) ∧
    (∀ (t : SyntaxTree) (p : Nat) (kw : List (String × PValue)),
      lookupP kw "token" = some (PValue.k .operator) →
        lookupP kw "position" = some (PValue.s "after") →
        WhitespaceViolation t p kw = .ok ⟨t, p, .WHITESPACE_AFTER_OPERATOR, kw⟩) ∧
    (∀ (t : SyntaxTree) (p : Nat) (kw : List (String × PValue)) (pv : PValue),
      lookupP kw "token" = some (PValue.k .operator) →
        lookupP kw "position" = some pv →
        pv ≠ PValue.s "before" → pv ≠ PValue.s "after" →
        WhitespaceViolation t p kw = .error "whitespace position must be in [before, after]") ∧
    (∀ (t : SyntaxTree) (p : Nat) (kw : List (String × PValue)) (tv pv : PValue),
      lookupP kw "token" = some tv → lookupP kw "position" = some pv →
        tv ≠ PValue.k .comma → tv ≠ PValue.k .bracketLeft →
        tv ≠ PValue.k .bracketRight → tv ≠ PValue.k .operator →
        WhitespaceViolation t p kw =
          .error "token kind must be in [comma, bracket_left, bracket_right, operator]") := by
  have eha : PValue.s "upper-head" ≠ PValue.s "upper-all" := by decide
  have ela : PValue.s "lower" ≠ PValue.s "upper-all" := by decide
  have elh : PValue.s "lower" ≠ PValue.s "upper-head" := by decide
  have eab : PValue.s "after" ≠ PValue.s "before" := by decide
  have ebc : PValue.k TokenKind.bracketLeft ≠ PValue.k TokenKind.comma := by decide
  have erc : PValue.k TokenKind.bracketRight ≠ PValue.k TokenKind.comma := by decide
  have erb : PValue.k TokenKind.bracketRight ≠ PValue.k TokenKind.bracketLeft := by decide
  have eoc : PValue.k TokenKind.operator ≠ PValue.k TokenKind.comma := by decide
  have eob : PValue.k TokenKind.operator ≠ PValue.k TokenKind.bracketLeft := by decide
  have eor : PValue.k TokenKind.operator ≠ PValue.k TokenKind.bracketRight := by decide
  refine ⟨?_, ?_, ?_, ?_, ?_, ?_, ?_, ?_, ?_, ?_, ?_, ?_, ?_, ?_, ?_, ?_⟩
  · intro t p kw h
    unfold KeywordStyleViolation
    rw [h]
    dsimp only
    rw [if_pos rfl]
  · intro t p kw h
    unfold KeywordStyleViolation
    rw [h]
    dsimp only
    rw [if_neg eha, if_pos rfl]
  · intro t p kw h
    unfold KeywordStyleViolation
    rw [h]
    dsimp only
    rw [if_neg ela, if_neg elh, if_pos rfl]
  · intro t p kw v h h1 h2 h3
    unfold KeywordStyleViolation
    rw [h]
    dsimp only
    rw [if_neg h1, if_neg h2, if_neg h3]
  · intro t p kw
    unfold CommaPositionViolation
    rw [if_pos rfl]
  · intro t p kw
    unfold CommaPositionViolation
    rw [if_neg (by decide : ("end" : String) ≠ "head"), if_pos rfl]
  · intro t p kw s h1 h2
    unfold CommaPositionViolation
    rw [if_neg h1, if_neg h2]
  · intro t p kw h1 h2
    unfold WhitespaceViolation
    rw [h1, h2]
    dsimp only
    rw [if_pos rfl, if_pos rfl]
  · intro t p kw h1 h2
    unfold WhitespaceViolation
    rw [h1, h2]
    dsimp only
    rw [if_pos rfl, if_neg eab, if_pos rfl]
  · intro t p kw pv h1 h2 h3 h4
    unfold WhitespaceViolation
    rw [h1, h2]
    dsimp only
    rw [if_pos rfl, if_neg h3, if_neg h4]
  · intro t p kw pv h1 h2
    unfold WhitespaceViolation
    rw [h1, h2]
    dsimp only
    rw [if_neg ebc, if_pos rfl]
  · intro t p kw pv h1 h2
    unfold WhitespaceViolation
    rw [h1, h2]
    dsimp only
    rw [if_neg erc, if_neg erb, if_pos rfl]
  · intro t p kw h1 h2
    unfold WhitespaceViolation
    rw [h1, h2]
    dsimp only
    rw [if_neg eoc, if_neg eob, if_neg eor, if_pos rfl, if_pos rfl]
  · intro t p kw h1 h2
    unfold WhitespaceViolation
    rw [h1, h2]
    dsimp only
    rw [if_neg eoc, if_neg eob, if_neg eor, if_pos rfl, if_neg eab, if_pos rfl]
  · intro t p kw pv h1 h2 h3 h4
    unfold WhitespaceViolation
    rw [h1, h2]
    dsimp only
    rw [if_neg eoc, if_neg eob, if_neg eor, if_pos rfl, if_neg h3, if_neg h4]
  · intro t p kw tv pv h1 h2 h3 h4 h5 h6
    unfold WhitespaceViolation
    rw [h1, h2]
    dsimp only
    rw [if_neg h3, if_neg h4, if_neg h5, if_neg h6]

/-- C6 witness: the dispatch behaves as the amended claim states on
concrete discriminator values. -/
theorem violation_discriminator_dispatch_witness :
    KeywordStyleViolation rootTree 1 [("style", PValue.s "upper-all")] =
      .ok ⟨rootTree, 1, .KEYWORD_UPPER, [("style", PValue.s "upper-all")]⟩ ∧
    KeywordStyleViolation rootTree 1 [("style", PValue.s "bogus")] =
      .error "keyword style must be in [upper-all, upper-head, lower]" ∧
    CommaPositionViolation rootTree 1 "middle" [] = .error "position must be in [head, end]" ∧
    WhitespaceViolation rootTree 1
        [("token", PValue.k .whitespace), ("position", PValue.s "before")] =
      .error "token kind must be in [comma, bracket_left, bracket_right, operator]" ∧
    WhitespaceViolation rootTree 1
        [("token", PValue.k .comma), ("position", PValue.s "sideways")] =
      .error "whitespace position must be in [before, after]" ∧
    WhitespaceViolation rootTree 1
        [("token", PValue.k .bracketRight), ("position", PValue.s "sideways")] =
      .ok ⟨rootTree, 1, .WHITESPACE_BEFORE_BRACKET,
        [("token", PValue.k .bracketRight), ("position", PValue.s "sideways")]⟩ := by
  obtain ⟨h1, _, _, h4, _, _, h7, _, _, h10, _, h12, _, _, _, h16⟩ :=
    violation_discriminator_dispatch
  refine ⟨h1 _ _ _ rfl, ?_, ?_, ?_, ?_, ?_⟩
  · exact h4 rootTree 1 _ (PValue.s "bogus") rfl (by decide) (by decide) (by decide)
  · exact h7 rootTree 1 [] "middle" (by decide) (by decide)
  · exact h16 rootTree 1 _ (PValue.k .whitespace) (PValue.s "before") rfl rfl
      (by decide) (by decide) (by decide) (by decide)
  · exact h10 rootTree 1 _ (PValue.s "sideways") rfl rfl (by decide) (by decide)
  · exact h12 rootTree 1 _ (PValue.s "sideways") rfl rfl

/-- C2 (code evaluation).  For every tree and config, the orchestrator
assembles and prints exactly the concatenation of the five checkers'
outputs in the declared order — IndentSteps, Whitespace, KeywordStyle,
Comma, Join — but returns None rather than that list: the function body
of `check` has no return statement, although its docstring says it
returns the messages. -/
theorem check_concatenates_but_returns_none (tree : SyntaxTree) (config : Config) :
    check tree config =
      ((IndentStepsChecker.check tree config ++ WhitespaceChecker.check tree config ++
        KeywordStyleChecker.check tree config ++ CommaChecker.check tree config ++
        JoinChecker.check tree config).map Violation.get_message, none) := by
  show (_, none) = _
  simp [check, checker_list, List.append_assoc]

/-- C4 (code evaluation).  Constructing a Node with a negative line number
is rejected, and the depth setter rejects a negative depth — but
`SyntaxTree.__init__` stores the depth through a direct field write that
bypasses that setter, so `SyntaxTree(depth=-1, line_num=0)` is produced
with depth -1 instead of raising. -/
theorem tree_init_depth_not_validated :
    SyntaxTree.init (-1) 0 [] = .ok ⟨-1, ⟨0, []⟩⟩ ∧
    Node.init (-1) [] = .error "line_num must be >= 0" ∧
    depthSet ⟨0, ⟨0, []⟩⟩ (-1) = .error "depth must be >= 0" := by
  refine ⟨rfl, rfl, rfl⟩

/-- C7.  `Node.indent` is the length of the first token's text when the
token list is non-empty and that token is whitespace, and 0 in every
other case: empty token list, or a first token of any other kind. -/
theorem node_indent_rule (n : Node) :
    (n.tokens = [] → n.indent = 0) ∧
    (∀ tk rest, n.tokens = tk :: rest → tk.kind = TokenKind.whitespace →
      n.indent = tk.word.length) ∧
    (∀ tk rest, n.tokens = tk :: rest → tk.kind ≠ TokenKind.whitespace → n.indent = 0) := by
  refine ⟨?_, ?_, ?_⟩
  · intro h
    unfold Node.indent indentOf
    rw [h]
  · intro tk rest h hk
    unfold Node.indent indentOf
    rw [h]
    dsimp only
    rw [if_pos hk]
    rfl
  · intro tk rest h hk
    unfold Node.indent indentOf
    rw [h]
    dsimp only
    rw [if_neg hk]

/-- C7 witness: a leading two-space whitespace token gives indent 2; a
blank line and a comment-led line give indent 0. -/
theorem node_indent_rule_witness :
    (Node.mk 1 [⟨TokenKind.whitespace, "  "⟩]).indent = 2 ∧
    (Node.mk 2 []).indent = 0 ∧
    (Node.mk 3 [⟨TokenKind.comment, "-- note"⟩]).indent = 0 := by
  refine ⟨?_, ?_, ?_⟩
  · exact (node_indent_rule (Node.mk 1 [⟨TokenKind.whitespace, "  "⟩])).2.1
      ⟨TokenKind.whitespace, "  "⟩ [] rfl rfl
  · exact (node_indent_rule _).1 rfl
  · exact (node_indent_rule _).2.2 _ _ rfl (by decide)

theorem drop_length_takeWhile (f : Token → Bool) :
    ∀ l : List Token, l.drop (l.takeWhile f).length = l.dropWhile f := by
  intro l
  induction l with
  | nil => rfl
  | cons a l ih =>
    by_cases h : f a
    · simp [List.takeWhile_cons, List.dropWhile_cons, h, ih]
    · simp [List.takeWhile_cons, List.dropWhile_cons, h]

theorem take_sub_takeWhile_reverse (f : Token → Bool) (l : List Token) :
    l.take (l.length - (l.reverse.takeWhile f).length) = (l.reverse.dropWhile f).reverse := by
  have h1 : l = (l.reverse.dropWhile f).reverse ++ (l.reverse.takeWhile f).reverse := by
    conv_lhs => rw [← l.reverse_reverse]
    conv_lhs => rw [← List.takeWhile_append_dropWhile (p := f) (l := l.reverse)]
    rw [List.reverse_append]
  have hlen : (l.reverse.takeWhile f).length + (l.reverse.dropWhile f).length = l.length := by
    have h := congrArg List.length (List.takeWhile_append_dropWhile (p := f) (l := l.reverse))
    rw [List.length_append, List.length_reverse] at h
    exact h
  have h2 : (l.reverse.dropWhile f).reverse.length =
      l.length - (l.reverse.takeWhile f).length := by
    simp only [List.length_reverse]
    omega
  have h3 := congrArg (List.take (l.length - (l.reverse.takeWhile f).length)) h1
  rw [h3]
  exact List.take_left' h2

theorem ltrip_kind_tokens (n : Node) (ks : List TokenKind) :
    (n.ltrip_kind ks).tokens = n.tokens.dropWhile (fun t => ks.contains t.kind) := by
  unfold Node.ltrip_kind
  exact drop_length_takeWhile (fun t => ks.contains t.kind) n.tokens

theorem rtrip_kind_tokens (n : Node) (ks : List TokenKind) :
    (n.rtrip_kind ks).tokens =
      ((n.tokens.reverse.dropWhile (fun t => ks.contains t.kind)).reverse) := by
  unfold Node.rtrip_kind
  exact take_sub_takeWhile_reverse (fun t => ks.contains t.kind) n.tokens

/-- C8.  The trim operations return a new node with the same line number:
`ltrip_kind` drops exactly the maximal leading run of tokens whose kind is
in the set (stopping at the first non-matching token), `rtrip_kind` drops
the maximal trailing run symmetrically, and `trip_kind` does both.  The
operations are pure: they construct new nodes and leave every existing
node untouched. -/
theorem trip_kind_spec (n : Node) (ks : List TokenKind) :
    (n.ltrip_kind ks).line_num = n.line_num ∧
    (n.ltrip_kind ks).tokens = n.tokens.dropWhile (fun t => ks.contains t.kind) ∧
    (n.rtrip_kind ks).line_num = n.line_num ∧
    (n.rtrip_kind ks).tokens =
      ((n.tokens.reverse.dropWhile (fun t => ks.contains t.kind)).reverse) ∧
    (n.trip_kind ks).line_num = n.line_num ∧
    (n.trip_kind ks).tokens =
      (((n.tokens.dropWhile (fun t => ks.contains t.kind)).reverse.dropWhile
        (fun t => ks.contains t.kind)).reverse) := by
  refine ⟨rfl, ltrip_kind_tokens n ks, rfl, rtrip_kind_tokens n ks, rfl, ?_⟩
  show ((n.ltrip_kind ks).rtrip_kind ks).tokens = _
  rw [rtrip_kind_tokens (n.ltrip_kind ks) ks, ltrip_kind_tokens n ks]

/-- C9.  For an index within the token count, `get_position` is 1 plus the
sum of the lengths of the `i` tokens preceding position `i` — a 1-based
column —, both on a node and through the tree's delegation. -/
theorem get_position_spec (t : SyntaxTree) (i : Nat) (h : i ≤ t.node.tokens.length) :
    t.get_position (i : Int) = 1 + ((t.node.tokens.take i).map Token.len).sum ∧
    t.node.get_position (i : Int) = 1 + ((t.node.tokens.take i).map Token.len).sum ∧
    (t.node.tokens.take i).length = i := by
  have hmax : (max ((i : Nat) : Int) 0).toNat = i := by omega
  refine ⟨?_, ?_, ?_⟩
  · show ((t.node.tokens.take (max ((i : Nat) : Int) 0).toNat).map Token.len).sum + 1 = _
    rw [hmax]
    omega
  · show ((t.node.tokens.take (max ((i : Nat) : Int) 0).toNat).map Token.len).sum + 1 = _
    rw [hmax]
    omega
  · rw [List.length_take]
    omega

/-- C9 witness: on a line `select` followed by one space, position 1 (just
after the six-character keyword) is column 7. -/
theorem get_position_spec_witness :
    SyntaxTree.get_position
        ⟨⟨1, [⟨TokenKind.keyword, "select"⟩, ⟨TokenKind.whitespace, " "⟩]⟩, 1, []⟩
        ((1 : Nat) : Int) = 7 ∧
    ((⟨⟨1, [⟨TokenKind.keyword, "select"⟩, ⟨TokenKind.whitespace, " "⟩]⟩, 1, []⟩ :
        SyntaxTree).node.tokens.take 1).length = 1 := by
  have h := get_position_spec
    ⟨⟨1, [⟨TokenKind.keyword, "select"⟩, ⟨TokenKind.whitespace, " "⟩]⟩, 1, []⟩ 1 (by decide)
  constructor
  · rw [h.1]
    rfl
  · exact h.2.2

end Sqlint
